import Mathlib

/-!
# Verification of the crossword CSP solver (`3.optimization/crossword/generate.py`)

A shallow embedding of the `CrosswordCreator` class.  Slots (the Python
`Variable` objects) are represented by natural-number identifiers; words are
lists of characters; the mutable `self.domains` dictionary is an explicit
store threaded through every operation.  Python's `set` iteration order is
unspecified, so the embedding fixes one canonical order: the order of the
`variables` and `words` lists of the puzzle structure.

Recursive procedures (`ac3`, `backtrack`) are embedded with an explicit fuel
argument and return `none` on fuel exhaustion; every concrete run in this
file is shown to complete by evaluation.  Python exceptions (the `KeyError`
that `set.remove` can raise inside `enforce_node_consistency`) are embedded
with `Except String`.
-/

namespace CrosswordCSP

/-- A slot identifier (the Python `Variable` object). -/
abbrev Slot := Nat

/-- A candidate word, as its list of characters. -/
abbrev Word := List Char

/-- The domain store `self.domains`: for each slot, the list of candidate
words still considered possible. -/
abbrev Domains := Slot → List Word

/-- A partial assignment: the Python dictionary mapping variables to words,
as an association list in insertion order. -/
abbrev Assignment := List (Slot × Word)

/-- Modelled from the spec: the PuzzleModel collaborator (the `Crossword`
class of `crossword.py`, which is not part of the solver source): the slot
set, each slot's fixed length, the candidate word list, and the symmetric
overlap map (`overlaps[x, y]` is the pair of character positions at which
slots `x` and `y` coincide, absent when they do not intersect). -/
structure Puzzle where
  vars : List Slot
  words : List Word
  length : Slot → Nat
  overlaps : Slot → Slot → Option (Nat × Nat)

/-- Modelled from the spec: `neighbors(slot)` of the PuzzleModel is the set
of all slots overlapping the given slot. -/
def neighbors (cw : Puzzle) (x : Slot) : List Slot :=
  cw.vars.filter (fun y => y ≠ x && (cw.overlaps x y).isSome)

/-- Character access `w[i]`.  Python raises `IndexError` when `i` is out of
range; the embedding totalizes with a default character, and every theorem
that depends on the character read stays within range. -/
def charAt (w : Word) (i : Nat) : Char :=
  w.getD i ' '

/-- Pointwise update of the domain store (`self.domains[x] = ...`). -/
def updateD (d : Domains) (x : Slot) (l : List Word) : Domains :=
  fun v => if v = x then l else d v

/-- The initial store built by `__init__`: every variable is mapped to a
copy of the full word list. -/
def initDomains (cw : Puzzle) : Domains :=
  fun _ => cw.words

/-- Python `set.remove`: removes the element, raising `KeyError` when it is
absent. -/
def setRemove (l : List Word) (w : Word) : Except String (List Word) :=
  if w ∈ l then .ok (l.erase w) else .error "KeyError"

/-- The inner loop of `enforce_node_consistency` for a single variable:
iterate over the master word list and remove each word whose length differs
from the slot's length. -/
def enforceVar (len : Nat) (ws : List Word) (dom : List Word) :
    Except String (List Word) :=
  ws.foldlM (fun acc w => if w.length ≠ len then setRemove acc w else pure acc) dom

/-- `enforce_node_consistency`: for each variable, remove from its domain
every word of the wrong length (iterating over `self.crossword.words`). -/
def enforce_node_consistency (cw : Puzzle) (d : Domains) :
    Except String Domains :=
  cw.vars.foldlM (fun acc v => do
    let l ← enforceVar (cw.length v) cw.words (acc v)
    pure (updateD acc v l)) d

/-- `revise(x, y)`: if an overlap exists, collect into `words_remove` every
word of `domain(x)` with no compatible partner in `domain(y)`, subtract it
from `domain(x)` when non-empty, and report whether a revision was made. -/
def revise (cw : Puzzle) (x y : Slot) (d : Domains) : Bool × Domains :=
  match cw.overlaps x y with
  | none => (false, d)
  | some (i, j) =>
    let wordsRemove :=
      (d x).filter (fun wx => !((d y).any (fun wy => charAt wx i == charAt wy j)))
    if wordsRemove.isEmpty then (false, d)
    else (true, updateD d x ((d x).filter (fun wx => !(wordsRemove.contains wx))))

/-- The initial arc list of `ac3` when called with `arcs=None`: every
variable paired with each of its neighbors. -/
def allArcs (cw : Puzzle) : List (Slot × Slot) :=
  cw.vars.flatMap (fun x => (neighbors cw x).map (fun y => (x, y)))

/-- `ac3(arcs)`: FIFO worklist propagation.  Pops an arc `(x, y)`; when
`revise` shrank `domain(x)`, fails immediately if that domain is now empty,
otherwise re-enqueues `(z, x)` for every neighbor `z` of `x` other than `y`.
Returns `none` on fuel exhaustion. -/
def ac3 (cw : Puzzle) : Nat → List (Slot × Slot) → Domains →
    Option (Bool × Domains)
  | _, [], d => some (true, d)
  | 0, _ :: _, _ => none
  | fuel + 1, (x, y) :: q, d =>
    if (revise cw x y d).1 then
      if ((revise cw x y d).2 x).isEmpty then some (false, (revise cw x y d).2)
      else
        ac3 cw fuel
          (q ++ ((neighbors cw x).filter (fun z => z ≠ y)).map (fun z => (z, x)))
          (revise cw x y d).2
    else ac3 cw fuel q (revise cw x y d).2

/-- `assignment_complete`: every variable is assigned a truthy (non-empty)
word. -/
def assignment_complete (cw : Puzzle) (a : Assignment) : Bool :=
  cw.vars.all (fun v =>
    match a.lookup v with
    | some w => !w.isEmpty
    | none => false)

/-- `consistent`: every assigned word has the length of its slot, and every
assigned pair of neighboring slots agrees at the overlap positions.  (The
inner `none` overlap branch is unreachable: `neighbors` only produces slots
with an overlap; Python would raise there unpacking `None`.) -/
def consistent (cw : Puzzle) (a : Assignment) : Bool :=
  a.all (fun p =>
    (cw.length p.1 == p.2.length) &&
    (neighbors cw p.1).all (fun y =>
      match a.lookup y with
      | none => true
      | some wy =>
        match cw.overlaps p.1 y with
        | none => true
        | some (i, j) => charAt p.2 i == charAt wy j))

/-- The heuristic count of `order_domain_values`: for one candidate word of
slot `x`, how many candidates of unassigned neighbors it rules out. -/
def ruleOutCount (cw : Puzzle) (d : Domains) (a : Assignment) (x : Slot)
    (w : Word) : Nat :=
  ((neighbors cw x).filter (fun n => (a.lookup n).isNone)).foldl
    (fun acc n =>
      match cw.overlaps x n with
      | none => acc
      | some (i, j) => acc + (d n).countP (fun w2 => !(charAt w i == charAt w2 j)))
    0

/-- Stable insertion of a word into a list sorted by ascending key. -/
def insertByKey (key : Word → Nat) (w : Word) : List Word → List Word
  | [] => [w]
  | v :: vs =>
    if key w ≤ key v then w :: v :: vs else v :: insertByKey key w vs

/-- Stable sort by ascending key, matching Python's stable `sorted`. -/
def sortByKey (key : Word → Nat) : List Word → List Word
  | [] => []
  | w :: ws => insertByKey key w (sortByKey key ws)

/-- `order_domain_values`: the candidates of `var`, stably sorted by the
ascending number of values they rule out among unassigned neighbors. -/
def order_domain_values (cw : Puzzle) (d : Domains) (x : Slot)
    (a : Assignment) : List Word :=
  sortByKey (ruleOutCount cw d a x) (d x)

/-- One step of the selection loop of `select_unassigned_variable`: the
state carries the current `unassigned_var` together with its recorded
`min_num_var` and `max_degree` (Python starts from `None`, `inf`, `-1`, so
the first variable always becomes the candidate). -/
def selStep (cw : Puzzle) (d : Domains) (best : Option (Slot × Nat × Nat))
    (v : Slot) : Option (Slot × Nat × Nat) :=
  let numVar := (d v).length
  let degree := (neighbors cw v).length
  match best with
  | none => some (v, numVar, degree)
  | some (u, minNum, maxDeg) =>
    if numVar < minNum || (numVar == minNum && degree > maxDeg) then
      some (v, numVar, degree)
    else some (u, minNum, maxDeg)

/-- `select_unassigned_variable`: among the variables absent from the
assignment, pick one with fewest remaining domain values, ties broken by
highest degree, earlier ties kept. -/
def select_unassigned_variable (cw : Puzzle) (d : Domains) (a : Assignment) :
    Option Slot :=
  ((cw.vars.filter (fun v => (a.lookup v).isNone)).foldl
    (selStep cw d) none).map (fun p => p.1)

/-- `new_assignment[var] = value` for a variable that is not yet assigned:
Python dictionary insertion appends in iteration order. -/
def insertA (a : Assignment) (x : Slot) (w : Word) : Assignment :=
  a ++ [(x, w)]

mutual

/-- `backtrack(assignment)`: return the assignment when complete, otherwise
select an unassigned variable and try its candidate values in heuristic
order.  The result pairs the Python return value with the final state of the
mutated `self.domains` store.  The `none` branch of the selection is
unreachable from `solve` (Python would raise looking up `self.domains[None]`). -/
def backtrack (cw : Puzzle) : Nat → Assignment → Domains →
    Option (Option Assignment × Domains)
  | 0, _, _ => none
  | fuel + 1, a, d =>
    if assignment_complete cw a then some (some a, d)
    else
      match select_unassigned_variable cw d a with
      | none => some (none, d)
      | some var => tryValues cw fuel var (order_domain_values cw d var a) a d

/-- The `for value in self.order_domain_values(...)` loop of `backtrack`.
After a consistent tentative extension, `ac3` runs on the arcs from `var`
(mutating the domain store even when the loop then moves on); when the
propagation reports success the code returns the recursive result
unconditionally, because `result is not False` is true for every value
`backtrack` can produce (it returns a dictionary or `None`, never `False`). -/
def tryValues (cw : Puzzle) : Nat → Slot → List Word → Assignment → Domains →
    Option (Option Assignment × Domains)
  | _, _, [], _, d => some (none, d)
  | 0, _, _ :: _, _, _ => none
  | fuel + 1, var, v :: rest, a, d =>
    let a2 := insertA a var v
    if consistent cw a2 then
      match ac3 cw (fuel + 1) ((neighbors cw var).map (fun n => (var, n))) d with
      | none => none
      | some (inference, d2) =>
        if inference then backtrack cw fuel a2 d2
        else tryValues cw fuel var rest a d2
    else tryValues cw fuel var rest a d

end

/- ------------------------------------------------------------------ -/

/-- `solve()`: enforce node consistency, run the global `ac3` pass ignoring
its boolean result, and backtrack from the empty assignment. -/
def solve (cw : Puzzle) (fuel : Nat) : Except String (Option Assignment) :=
  match enforce_node_consistency cw (initDomains cw) with
  | .error e => .error e
  | .ok d0 =>
    match ac3 cw fuel (allArcs cw) d0 with
    | none => .error "fuel"
    | some (_, d1) =>
      match backtrack cw fuel [] d1 with
      | none => .error "fuel"
      | some (r, _) => .ok r

/-! ## Concrete instances used by examples and counterexamples -/

/-- The word "cat". -/
def catW : Word := "cat".toList

/-- The word "top". -/
def topW : Word := "top".toList

/-- The word "dog". -/
def dogW : Word := "dog".toList

/-- The word "tree". -/
def treeW : Word := "tree".toList

/-- The overlap map shared by the two-slot examples of the spec: slot 0 and
slot 1 coincide at position 2 of slot 0 and position 0 of slot 1. -/
def twoSlotOverlaps : Slot → Slot → Option (Nat × Nat) :=
  fun x y =>
    match x, y with
    | 0, 1 => some (2, 0)
    | 1, 0 => some (0, 2)
    | _, _ => none

/-- Spec Example 2: slots A = 0 and B = 1, both of length 3, overlapping
with A[2] = B[0], word list {"cat", "top"}. -/
def cwEx2 : Puzzle :=
  { vars := [0, 1], words := [catW, topW],
    length := fun _ => 3, overlaps := twoSlotOverlaps }

/-- Spec Example 1: the same two slots with word list {"cat", "dog"}, an
unsatisfiable instance on which the global `ac3` pass reports failure. -/
def cwEx1 : Puzzle :=
  { vars := [0, 1], words := [catW, dogW],
    length := fun _ => 3, overlaps := twoSlotOverlaps }

/-- A domain store for `cwEx1` with slot 0 reduced to {"cat"} and slot 1
reduced to {"dog"}. -/
def dC2 : Domains :=
  fun v => if v = 0 then [catW] else [dogW]

/-- A one-slot puzzle of length 3 whose word list contains the wrong-length
word "tree". -/
def cwC3 : Puzzle :=
  { vars := [0], words := [catW, treeW],
    length := fun _ => 3, overlaps := fun _ _ => none }

/-- The three-slot triangle used to exhibit the incompleteness of the
search: slots X = 0 (length 3), Y = 1 (length 4), Z = 2 (length 5) with
X[0] = Y[0], X[1] = Z[1], Y[2] = Z[2]. -/
def triangleOverlaps : Slot → Slot → Option (Nat × Nat) :=
  fun x y =>
    match x, y with
    | 0, 1 => some (0, 0)
    | 1, 0 => some (0, 0)
    | 0, 2 => some (1, 1)
    | 2, 0 => some (1, 1)
    | 1, 2 => some (2, 2)
    | 2, 1 => some (2, 2)
    | _, _ => none

/-- The word list of the triangle instance.  The six words built from the
letters p, n, x, m, k, w form a fully arc-consistent but unsolvable
sub-instance (the supports are crossed), while the words built from g, f, s
form the unique solution. -/
def triWords : List Word :=
  ["pna".toList, "xma".toList, "gfa".toList,
   "pbkb".toList, "xbwb".toList, "gbsb".toList,
   "cnwcc".toList, "cmkcc".toList, "cfscc".toList]

/-- The triangle puzzle: a satisfiable instance on which `solve` fails. -/
def cwC1 : Puzzle :=
  { vars := [0, 1, 2], words := triWords,
    length := fun v => v + 3, overlaps := triangleOverlaps }

/-- The unique complete consistent assignment of the triangle puzzle. -/
def triSolution : Assignment :=
  [(0, "gfa".toList), (1, "gbsb".toList), (2, "cfscc".toList)]

/-! ## Claim theorems -/

/-- C4: on spec Example 2 (slot A of length 3 and slot B of length 3 with
A[2] = B[0], word list {"cat", "top"}), `solve` returns exactly the
assignment {A: "cat", B: "top"}. -/
theorem solve_example2 : solve cwEx2 50 = .ok (some [(0, catW), (1, topW)]) := by
  rfl

/-- C1: backtracking search is not complete.  On the triangle instance the
assignment `triSolution` is complete and consistent, yet `solve` returns
`None`: the comparison `result is not False` in `backtrack` is true for
every result (the recursion returns a dictionary or `None`, never `False`),
so the search commits to the first propagation-approved candidate and never
tries the alternatives that lead to the existing solution. -/
theorem backtrack_incomplete :
    assignment_complete cwC1 triSolution = true ∧
    consistent cwC1 triSolution = true ∧
    solve cwC1 100 = .ok none := by
  refine ⟨by rfl, by rfl, by rfl⟩

/-- C2 counterexample: a `backtrack` call that returns failure and leaves
the caller with domains different from the ones before the call.  On
`cwEx1` with store {0 ↦ {"cat"}, 1 ↦ {"dog"}}, the tentative value "cat"
for slot 0 is abandoned after propagation empties slot 0's domain, and the
call returns failure with slot 0's domain still empty instead of the
original {"cat"}. -/
theorem backtrack_no_restore :
    (backtrack cwEx1 5 [] dC2).map (fun p => (p.1, p.2 0)) = some (none, []) ∧
    dC2 0 ≠ [] := by
  exact ⟨by rfl, by decide⟩

/-- C3 counterexample: `enforce_node_consistency` is not idempotent.  On a
one-slot puzzle of length 3 with word list {"cat", "tree"}, the first run
removes "tree", and the second run raises `KeyError` trying to remove
"tree" again (`set.remove` on an absent element). -/
theorem node_consistency_not_idempotent :
    (enforce_node_consistency cwC3 (initDomains cwC3)).bind
      (fun d => enforce_node_consistency cwC3 d) = .error "KeyError" := by
  rfl

/-- The filtered domain of `x` produced by a successful revision keeps
exactly the words with a compatible partner. -/
lemma mem_revise_filter {d : Domains} {x y : Slot} {i j : Nat} (w : Word) :
    w ∈ (d x).filter (fun wx =>
        !(((d x).filter (fun wx =>
            !((d y).any (fun wy => charAt wx i == charAt wy j)))).contains wx)) ↔
      w ∈ d x ∧ ∃ w2 ∈ d y, charAt w i = charAt w2 j := by
  simp only [List.mem_filter, Bool.not_eq_true', List.elem_eq_mem,
    decide_eq_false_iff_not, List.any_eq_false, List.any_eq_true, beq_iff_eq]
  constructor
  · rintro ⟨hmem, hno⟩
    refine ⟨hmem, ?_⟩
    by_contra hnone
    push_neg at hnone
    exact hno ⟨hmem, fun w2 hw2 => hnone w2 hw2⟩
  · rintro ⟨hmem, w2, hw2, heq⟩
    exact ⟨hmem, fun h => h.2 w2 hw2 heq⟩

/-- C6: when an overlap `(i, j)` exists, `revise(x, y)` removes from
`domain(x)` exactly the words with no compatible partner in `domain(y)` and
reports `true` iff at least one word was removed; without an overlap it is a
no-op reporting `false`. -/
theorem revise_removes_exactly (cw : Puzzle) (x y : Slot) (d : Domains) :
    (∀ i j, cw.overlaps x y = some (i, j) →
      (∀ w, w ∈ (revise cw x y d).2 x ↔
        w ∈ d x ∧ ∃ w2 ∈ d y, charAt w i = charAt w2 j) ∧
      ((revise cw x y d).1 = true ↔
        ∃ w ∈ d x, ∀ w2 ∈ d y, charAt w i ≠ charAt w2 j)) ∧
    (cw.overlaps x y = none → revise cw x y d = (false, d)) := by
  constructor
  · intro i j hov
    unfold revise
    rw [hov]
    simp only
    by_cases hemp : ((d x).filter (fun wx =>
        !((d y).any (fun wy => charAt wx i == charAt wy j)))).isEmpty
    · rw [if_pos hemp]
      rw [List.isEmpty_iff] at hemp
      have hall : ∀ w ∈ d x, ∃ w2 ∈ d y, charAt w i = charAt w2 j := by
        intro w hw
        have := List.filter_eq_nil_iff.mp hemp w hw
        simp only [Bool.not_eq_true', Bool.not_eq_false, List.any_eq_true,
          beq_iff_eq] at this
        exact this
      constructor
      · intro w
        exact ⟨fun hw => ⟨hw, hall w hw⟩, fun hw => hw.1⟩
      · constructor
        · intro h
          exact Bool.noConfusion h
        · rintro ⟨w, hw, hno⟩
          obtain ⟨w2, hw2, heq⟩ := hall w hw
          exact absurd heq (hno w2 hw2)
    · rw [if_neg hemp]
      constructor
      · intro w
        simpa only [updateD, if_pos rfl] using
          mem_revise_filter (d := d) (x := x) (y := y) (i := i) (j := j) w
      · refine ⟨fun _ => ?_, fun _ => rfl⟩
        have hne := hemp
        rw [List.isEmpty_iff] at hne
        obtain ⟨w, hw⟩ := List.exists_mem_of_ne_nil _ hne
        simp only [List.mem_filter, Bool.not_eq_true', List.any_eq_false,
          beq_iff_eq] at hw
        exact ⟨w, hw.1, hw.2⟩
  · intro hov
    unfold revise
    rw [hov]

/-- C10: `revise(x, y)` only ever modifies the domain of `x`: every other
slot's domain is unchanged, and the new domain of `x` only keeps words it
already had. -/
theorem revise_frame (cw : Puzzle) (x y : Slot) (d : Domains) :
    (∀ v, v ≠ x → (revise cw x y d).2 v = d v) ∧
    (∀ w, w ∈ (revise cw x y d).2 x → w ∈ d x) := by
  unfold revise
  rcases hov : cw.overlaps x y with _ | ⟨i, j⟩
  · exact ⟨fun v _ => rfl, fun w hw => hw⟩
  · simp only
    by_cases hemp : ((d x).filter (fun wx =>
        !((d y).any (fun wy => charAt wx i == charAt wy j)))).isEmpty
    · rw [if_pos hemp]
      exact ⟨fun v _ => rfl, fun w hw => hw⟩
    · rw [if_neg hemp]
      constructor
      · intro v hv
        simp only [updateD, if_neg hv]
      · intro w hw
        simp only [updateD, if_pos rfl] at hw
        exact (List.mem_filter.mp hw).1

/-- Witness for C6: on Example 2 with the full initial domains, "cat" stays
in slot 0's domain after `revise(0, 1)` because "top" supports it. -/
theorem revise_removes_exactly_witness :
    catW ∈ (revise cwEx2 0 1 (initDomains cwEx2)).2 0 :=
  ((revise_removes_exactly cwEx2 0 1 (initDomains cwEx2)).1 2 0 rfl).1 catW
    |>.mpr ⟨by decide, topW, by decide, by decide⟩

/-- Witness for C10: `revise(0, 1)` on Example 2 leaves the domain of slot
1 unchanged. -/
theorem revise_frame_witness :
    (revise cwEx2 0 1 (initDomains cwEx2)).2 1 = initDomains cwEx2 1 :=
  (revise_frame cwEx2 0 1 (initDomains cwEx2)).1 1 (by decide)

/-- When `revise` reports no revision, the store is unchanged. -/
lemma revise_snd_of_false {cw : Puzzle} {x y : Slot} {d : Domains}
    (h : (revise cw x y d).1 = false) : (revise cw x y d).2 = d := by
  unfold revise at h ⊢
  rcases hov : cw.overlaps x y with _ | ⟨i, j⟩
  · rfl
  · dsimp only at h ⊢
    by_cases hemp : ((d x).filter (fun wx =>
        !((d y).any (fun wy => charAt wx i == charAt wy j)))).isEmpty
    · rw [if_pos hemp]
    · rw [hov] at h
      dsimp only at h
      rw [if_neg hemp] at h
      exact Bool.noConfusion h

/-- `ac3` with an empty worklist succeeds and returns the store unchanged. -/
lemma ac3_nil (cw : Puzzle) (fuel : Nat) (d : Domains) :
    ac3 cw fuel [] d = some (true, d) := by
  cases fuel <;> rfl

/-- A revision that empties the revised domain makes `ac3` fail at once. -/
lemma ac3_fail_step (cw : Puzzle) (fuel : Nat) (x y : Slot)
    (q : List (Slot × Slot)) (d d2 : Domains)
    (hrev : revise cw x y d = (true, d2)) (hemp : d2 x = []) :
    ac3 cw (fuel + 1) ((x, y) :: q) d = some (false, d2) := by
  simp only [ac3, hrev, hemp, List.isEmpty_nil, if_pos]

/-- A revision that shrinks the domain without emptying it re-enqueues the
arcs `(z, x)` for the other neighbors of `x` and continues. -/
lemma ac3_requeue_step (cw : Puzzle) (fuel : Nat) (x y : Slot)
    (q : List (Slot × Slot)) (d d2 : Domains)
    (hrev : revise cw x y d = (true, d2)) (hne : d2 x ≠ []) :
    ac3 cw (fuel + 1) ((x, y) :: q) d =
      ac3 cw fuel
        (q ++ ((neighbors cw x).filter (fun z => z ≠ y)).map (fun z => (z, x)))
        d2 := by
  have hemp : (d2 x).isEmpty = false := by
    rw [List.isEmpty_eq_false_iff_exists_mem]
    exact List.exists_mem_of_ne_nil _ hne
  simp only [ac3, hrev, hemp, Bool.false_eq_true, if_false, if_pos]

/-- A revision that changes nothing pops the arc and continues. -/
lemma ac3_skip_step (cw : Puzzle) (fuel : Nat) (x y : Slot)
    (q : List (Slot × Slot)) (d : Domains)
    (hrev : (revise cw x y d).1 = false) :
    ac3 cw (fuel + 1) ((x, y) :: q) d = ac3 cw fuel q d := by
  have hsnd := revise_snd_of_false hrev
  simp only [ac3, hrev, Bool.false_eq_true, if_false, hsnd]

/-- When `ac3` completes with failure, some variable's domain in the final
store is empty (provided every arc in the worklist starts at a variable of
the puzzle, as all arcs ever enqueued do). -/
lemma ac3_false_empty (cw : Puzzle) :
    ∀ fuel q d d', (∀ p ∈ q, p.1 ∈ cw.vars) →
      ac3 cw fuel q d = some (false, d') → ∃ v ∈ cw.vars, d' v = [] := by
  intro fuel
  induction fuel with
  | zero =>
    intro q d d' hq h
    cases q with
    | nil =>
      rw [ac3_nil] at h
      have h1 : true = false := congrArg Prod.fst (Option.some.inj h)
      exact Bool.noConfusion h1
    | cons p q' => exact Option.noConfusion h
  | succ n ih =>
    intro q d d' hq h
    cases q with
    | nil =>
      rw [ac3_nil] at h
      have h1 : true = false := congrArg Prod.fst (Option.some.inj h)
      exact Bool.noConfusion h1
    | cons p q' =>
      obtain ⟨x, y⟩ := p
      rcases hb : (revise cw x y d).1 with _ | _
      · rw [ac3_skip_step cw n x y q' d hb] at h
        exact ih q' _ d' (fun p hp => hq p (List.mem_cons_of_mem _ hp)) h
      · have hrev : revise cw x y d = (true, (revise cw x y d).2) := by
          rw [← hb]
        by_cases hemp : (revise cw x y d).2 x = []
        · rw [ac3_fail_step cw n x y q' d _ hrev hemp] at h
          have h2 : (revise cw x y d).2 = d' :=
            congrArg Prod.snd (Option.some.inj h)
          exact ⟨x, hq (x, y) (List.mem_cons_self _ _), h2 ▸ hemp⟩
        · rw [ac3_requeue_step cw n x y q' d _ hrev hemp] at h
          refine ih _ _ d' ?_ h
          intro p hp
          rcases List.mem_append.mp hp with hp | hp
          · exact hq p (List.mem_cons_of_mem _ hp)
          · obtain ⟨z, hz, rfl⟩ := List.mem_map.mp hp
            exact (List.mem_filter.mp (List.mem_filter.mp hz).1).1

/-- When `ac3` completes with success from a store with no empty domain, no
domain is empty afterwards: success means no revision ever emptied one. -/
lemma ac3_true_preserves (cw : Puzzle) :
    ∀ fuel q d d', ac3 cw fuel q d = some (true, d') →
      (∀ v, d v ≠ []) → ∀ v, d' v ≠ [] := by
  intro fuel
  induction fuel with
  | zero =>
    intro q d d' h hne
    cases q with
    | nil =>
      rw [ac3_nil] at h
      have h2 : d = d' := congrArg Prod.snd (Option.some.inj h)
      exact h2 ▸ hne
    | cons p q' => exact Option.noConfusion h
  | succ n ih =>
    intro q d d' h hne
    cases q with
    | nil =>
      rw [ac3_nil] at h
      have h2 : d = d' := congrArg Prod.snd (Option.some.inj h)
      exact h2 ▸ hne
    | cons p q' =>
      obtain ⟨x, y⟩ := p
      rcases hb : (revise cw x y d).1 with _ | _
      · rw [ac3_skip_step cw n x y q' d hb] at h
        exact ih q' d d' h hne
      · have hrev : revise cw x y d = (true, (revise cw x y d).2) := by
          rw [← hb]
        by_cases hemp : (revise cw x y d).2 x = []
        · rw [ac3_fail_step cw n x y q' d _ hrev hemp] at h
          have h1 : false = true := congrArg Prod.fst (Option.some.inj h)
          exact Bool.noConfusion h1
        · rw [ac3_requeue_step cw n x y q' d _ hrev hemp] at h
          refine ih _ _ d' h ?_
          intro v
          by_cases hvx : v = x
          · exact hvx ▸ hemp
          · rw [(revise_frame cw x y d).1 v hvx]
            exact hne v

/-- C7: `ac3` fails exactly when a revision empties a domain: an emptying
revision returns `false` at once with the emptied store; a shrinking
revision re-enqueues every arc `(z, x)` for the neighbors `z ≠ y` of `x`;
an exhausted worklist returns `true`; failure implies an empty domain in
the final store; success from a store with no empty domain means no domain
was ever emptied. -/
theorem ac3_spec (cw : Puzzle) :
    (∀ fuel d, ac3 cw fuel [] d = some (true, d)) ∧
    (∀ fuel x y q d d2, revise cw x y d = (true, d2) → d2 x = [] →
      ac3 cw (fuel + 1) ((x, y) :: q) d = some (false, d2)) ∧
    (∀ fuel x y q d d2, revise cw x y d = (true, d2) → d2 x ≠ [] →
      ac3 cw (fuel + 1) ((x, y) :: q) d =
        ac3 cw fuel
          (q ++ ((neighbors cw x).filter (fun z => z ≠ y)).map (fun z => (z, x)))
          d2) ∧
    (∀ fuel q d d', (∀ p ∈ q, p.1 ∈ cw.vars) →
      ac3 cw fuel q d = some (false, d') → ∃ v ∈ cw.vars, d' v = []) ∧
    (∀ fuel q d d', ac3 cw fuel q d = some (true, d') →
      (∀ v, d v ≠ []) → ∀ v, d' v ≠ []) :=
  ⟨fun fuel d => ac3_nil cw fuel d,
   fun fuel x y q d d2 h1 h2 => ac3_fail_step cw fuel x y q d d2 h1 h2,
   fun fuel x y q d d2 h1 h2 => ac3_requeue_step cw fuel x y q d d2 h1 h2,
   ac3_false_empty cw, ac3_true_preserves cw⟩

/-- Witness for C7: on Example 1, revising slot 0 against slot 1 over the
full domains empties slot 0's domain, and `ac3` on the single arc `(0, 1)`
fails immediately with that store. -/
theorem ac3_spec_witness :
    ac3 cwEx1 1 [(0, 1)] (initDomains cwEx1) =
      some (false, updateD (initDomains cwEx1) 0 []) :=
  (ac3_spec cwEx1).2.1 0 0 1 [] (initDomains cwEx1)
    (updateD (initDomains cwEx1) 0 []) rfl rfl

/-- Invariant of the selection loop: starting from a candidate `u`, the
fold returns a candidate that is minimal in domain size, with maximal degree
among the ties, over `u` and the remaining variables. -/
lemma sel_fold_spec (cw : Puzzle) (d : Domains) :
    ∀ (l : List Slot) (u : Slot),
      ∃ v, l.foldl (selStep cw d)
          (some (u, (d u).length, (neighbors cw u).length)) =
          some (v, (d v).length, (neighbors cw v).length) ∧
        (v = u ∨ v ∈ l) ∧
        ((d v).length ≤ (d u).length ∧
          ((d u).length = (d v).length →
            (neighbors cw u).length ≤ (neighbors cw v).length)) ∧
        (∀ x ∈ l, (d v).length ≤ (d x).length ∧
          ((d x).length = (d v).length →
            (neighbors cw x).length ≤ (neighbors cw v).length)) := by
  intro l
  induction l with
  | nil =>
    intro u
    exact ⟨u, rfl, Or.inl rfl, ⟨le_refl _, fun _ => le_refl _⟩, by simp⟩
  | cons w rest ih =>
    intro u
    rw [List.foldl_cons]
    have hstep : selStep cw d (some (u, (d u).length, (neighbors cw u).length)) w =
        if ((d w).length < (d u).length ||
            ((d w).length == (d u).length &&
              (neighbors cw w).length > (neighbors cw u).length) : Bool) then
          some (w, (d w).length, (neighbors cw w).length)
        else some (u, (d u).length, (neighbors cw u).length) := rfl
    by_cases hc : ((d w).length < (d u).length ∨
        ((d w).length = (d u).length ∧
          (neighbors cw u).length < (neighbors cw w).length))
    · have hb : ((d w).length < (d u).length ||
          ((d w).length == (d u).length &&
            (neighbors cw w).length > (neighbors cw u).length) : Bool) = true := by
        simp only [Bool.or_eq_true, decide_eq_true_eq, Bool.and_eq_true,
          beq_iff_eq, gt_iff_lt]
        exact hc
      rw [hstep, if_pos hb]
      obtain ⟨v, hfold, hmem, hvw, hall⟩ := ih w
      refine ⟨v, hfold, ?_, ?_, ?_⟩
      · rcases hmem with rfl | hmem
        · exact Or.inr (List.mem_cons_self _ _)
        · exact Or.inr (List.mem_cons_of_mem _ hmem)
      · rcases hc with hlt | ⟨heq, hdeg⟩
        · refine ⟨le_trans hvw.1 (le_of_lt hlt), fun htie => ?_⟩
          exact absurd (lt_of_le_of_lt (htie ▸ hvw.1) hlt) (lt_irrefl _)
        · refine ⟨heq ▸ hvw.1, fun htie => ?_⟩
          have hwv : (d w).length = (d v).length := heq.trans htie
          exact le_trans (le_of_lt hdeg) (hvw.2 hwv)
      · intro x hx
        rcases List.mem_cons.mp hx with rfl | hx
        · exact hvw
        · exact hall x hx
    · push_neg at hc
      have hb : ((d w).length < (d u).length ||
          ((d w).length == (d u).length &&
            (neighbors cw w).length > (neighbors cw u).length) : Bool) = false := by
        rcases eq_or_ne (d w).length (d u).length with heq | hne
        · have hnlt : ¬ (d w).length < (d u).length := heq ▸ lt_irrefl _
          have hnd : ¬ (neighbors cw u).length < (neighbors cw w).length :=
            Nat.not_lt.mpr (hc.2 heq)
          simp [heq, hnd, hnlt]
        · have hnlt : ¬ (d w).length < (d u).length := Nat.not_lt.mpr hc.1
          simp [hne, hnlt]
      rw [hstep, if_neg (by simp [hb])]
      obtain ⟨v, hfold, hmem, hvu, hall⟩ := ih u
      refine ⟨v, hfold, ?_, hvu, ?_⟩
      · rcases hmem with rfl | hmem
        · exact Or.inl rfl
        · exact Or.inr (List.mem_cons_of_mem _ hmem)
      · intro x hx
        rcases List.mem_cons.mp hx with rfl | hx
        · have hle : (d u).length ≤ (d x).length := hc.1
          refine ⟨le_trans hvu.1 hle, fun htie => ?_⟩
          have huvle : (d u).length ≤ (d v).length := htie ▸ hle
          have huv : (d u).length = (d v).length := le_antisymm huvle hvu.1
          have hwu : (d x).length = (d u).length := htie.trans huv.symm
          have hdwu : (neighbors cw x).length ≤ (neighbors cw u).length :=
            hc.2 hwu
          exact le_trans hdwu (hvu.2 huv)
        · exact hall x hx

/-- The selection loop returns an unassigned slot of minimal domain size,
with maximal degree among the ties. -/
lemma select_unassigned_spec (cw : Puzzle) (d : Domains)
    (a : Assignment)
    (hne : cw.vars.filter (fun v => (a.lookup v).isNone) ≠ []) :
    ∃ v, select_unassigned_variable cw d a = some v ∧
      v ∈ cw.vars ∧ (a.lookup v).isNone ∧
      ∀ u ∈ cw.vars, (a.lookup u).isNone →
        (d v).length ≤ (d u).length ∧
        ((d u).length = (d v).length →
          (neighbors cw u).length ≤ (neighbors cw v).length) := by
  rcases hsplit : cw.vars.filter (fun v => (a.lookup v).isNone) with _ | ⟨h0, t⟩
  · exact absurd hsplit hne
  · have hfold := sel_fold_spec cw d t h0
    obtain ⟨v, hfold, hmem, hvh, hall⟩ := hfold
    refine ⟨v, ?_, ?_, ?_, ?_⟩
    · unfold select_unassigned_variable
      rw [hsplit, List.foldl_cons]
      have hfirst : selStep cw d none h0 =
          some (h0, (d h0).length, (neighbors cw h0).length) := rfl
      rw [hfirst, hfold]
      rfl
    · have : v ∈ cw.vars.filter (fun v => (a.lookup v).isNone) := by
        rw [hsplit]
        rcases hmem with rfl | hmem
        · exact List.mem_cons_self _ _
        · exact List.mem_cons_of_mem _ hmem
      exact (List.mem_filter.mp this).1
    · have : v ∈ cw.vars.filter (fun v => (a.lookup v).isNone) := by
        rw [hsplit]
        rcases hmem with rfl | hmem
        · exact List.mem_cons_self _ _
        · exact List.mem_cons_of_mem _ hmem
      have := (List.mem_filter.mp this).2
      simpa using this
    · intro u hu hun
      have humem : u ∈ cw.vars.filter (fun v => (a.lookup v).isNone) := by
        rw [List.mem_filter]
        exact ⟨hu, by simpa using hun⟩
      rw [hsplit] at humem
      rcases List.mem_cons.mp humem with rfl | humem
      · exact hvh
      · exact hall u humem

/-- C8: when at least one slot is unassigned, `select_unassigned_variable`
returns an unassigned slot with the minimum number of remaining domain
candidates, and with the maximum number of overlap-neighbors among the
slots tied for that minimum. -/
theorem select_unassigned_variable_mrv (cw : Puzzle) (d : Domains)
    (a : Assignment)
    (hne : cw.vars.filter (fun v => (a.lookup v).isNone) ≠ []) :
    ∃ v, select_unassigned_variable cw d a = some v ∧
      v ∈ cw.vars ∧ (a.lookup v).isNone ∧
      ∀ u ∈ cw.vars, (a.lookup u).isNone →
        (d v).length ≤ (d u).length ∧
        ((d u).length = (d v).length →
          (neighbors cw u).length ≤ (neighbors cw v).length) :=
  select_unassigned_spec cw d a hne

/-- Witness for C8: on Example 2 with the empty assignment, the selection
returns slot 0, whose domain is no larger than slot 1's. -/
theorem select_unassigned_variable_mrv_witness :
    (initDomains cwEx2 0).length ≤ (initDomains cwEx2 1).length ∧
    select_unassigned_variable cwEx2 (initDomains cwEx2) [] = some 0 := by
  obtain ⟨v, hv, hmem, hun, hall⟩ :=
    select_unassigned_variable_mrv cwEx2 (initDomains cwEx2) [] (by decide)
  have h0 : select_unassigned_variable cwEx2 (initDomains cwEx2) [] = some 0 := by
    rfl
  have hv0 : v = 0 := Option.some.inj (hv.symm.trans h0)
  subst hv0
  exact ⟨(hall 1 (by decide) (by decide)).1, hv⟩

/-- The store produced by the node-consistency pass on fresh domains: every
variable keeps exactly the words of its slot's length. -/
def ncDomains (cw : Puzzle) : Domains :=
  fun v =>
    if v ∈ cw.vars then cw.words.filter (fun w => w.length == cw.length v)
    else cw.words

/-- Running the per-variable removal loop over a duplicate-free word list,
on a store containing every wrong-length word of the list, filters exactly
those words out. -/
lemma enforceVar_go (len : Nat) :
    ∀ (todo dom : List Word), todo.Nodup → dom.Nodup →
      (∀ w ∈ todo, w.length ≠ len → w ∈ dom) →
      enforceVar len todo dom =
        .ok (dom.filter (fun u => !(decide (u ∈ todo) && decide (u.length ≠ len)))) := by
  intro todo
  induction todo with
  | nil =>
    intro dom _ _ _
    show Except.ok dom = _
    simp
  | cons w rest ih =>
    intro dom hnd hdom hsub
    have hcons : enforceVar len (w :: rest) dom =
        (if w.length ≠ len then setRemove dom w else pure dom) >>= fun acc =>
          enforceVar len rest acc := rfl
    by_cases hw : w.length ≠ len
    · have hwdom : w ∈ dom := hsub w (List.mem_cons_self _ _) hw
      have hrem : setRemove dom w = .ok (dom.erase w) := by
        unfold setRemove
        rw [if_pos hwdom]
      rw [hcons, if_pos hw, hrem]
      show enforceVar len rest (dom.erase w) = _
      rw [hdom.erase_eq_filter w]
      rw [ih (dom.filter (fun x => x != w)) hnd.of_cons (hdom.filter _) ?side]
      case side =>
        intro u hu hulen
        rw [List.mem_filter]
        refine ⟨hsub u (List.mem_cons_of_mem _ hu) hulen, ?_⟩
        have hne : u ≠ w := by
          rintro rfl
          exact (List.nodup_cons.mp hnd).1 hu
        simpa using hne
      rw [List.filter_filter]
      congr 1
      apply List.filter_congr
      intro u hu
      by_cases huw : u = w
      · subst huw
        simp [hw]
      · simp [huw, List.mem_cons]
    · rw [hcons, if_neg hw]
      show enforceVar len rest dom = _
      rw [ih dom hnd.of_cons hdom
        (fun u hu hl => hsub u (List.mem_cons_of_mem _ hu) hl)]
      congr 1
      apply List.filter_congr
      intro u hu
      by_cases huw : u = w
      · subst huw
        simp at hw
        simp [hw]
      · simp [huw, List.mem_cons]

/-- When some word of the list has the wrong length but none of the
wrong-length words is still in the store, the removal loop raises
`KeyError`. -/
lemma enforceVar_error (len : Nat) :
    ∀ (todo dom : List Word),
      (∀ w ∈ todo, w.length ≠ len → w ∉ dom) →
      (∃ w ∈ todo, w.length ≠ len) →
      enforceVar len todo dom = .error "KeyError" := by
  intro todo
  induction todo with
  | nil =>
    intro dom _ hex
    obtain ⟨w, hw, _⟩ := hex
    exact absurd hw (List.not_mem_nil w)
  | cons w rest ih =>
    intro dom hsub hex
    have hcons : enforceVar len (w :: rest) dom =
        (if w.length ≠ len then setRemove dom w else pure dom) >>= fun acc =>
          enforceVar len rest acc := rfl
    by_cases hw : w.length ≠ len
    · have hnot : w ∉ dom := hsub w (List.mem_cons_self _ _) hw
      have hrem : setRemove dom w = .error "KeyError" := by
        unfold setRemove
        rw [if_neg hnot]
      rw [hcons, if_pos hw, hrem]
      rfl
    · rw [hcons, if_neg hw]
      show enforceVar len rest dom = _
      refine ih dom (fun u hu hl => hsub u (List.mem_cons_of_mem _ hu) hl) ?_
      obtain ⟨u, hu, hul⟩ := hex
      rcases List.mem_cons.mp hu with rfl | hu
      · exact absurd hul hw
      · exact ⟨u, hu, hul⟩

/-- When every word of the list has the right length, the removal loop
leaves the store untouched. -/
lemma enforceVar_id (len : Nat) :
    ∀ (todo dom : List Word), (∀ w ∈ todo, w.length = len) →
      enforceVar len todo dom = .ok dom := by
  intro todo
  induction todo with
  | nil =>
    intro dom _
    rfl
  | cons w rest ih =>
    intro dom hall
    have hcons : enforceVar len (w :: rest) dom =
        (if w.length ≠ len then setRemove dom w else pure dom) >>= fun acc =>
          enforceVar len rest acc := rfl
    have hw : ¬ w.length ≠ len := by
      simp [hall w (List.mem_cons_self _ _)]
    rw [hcons, if_neg hw]
    show enforceVar len rest dom = _
    exact ih dom (fun u hu => hall u (List.mem_cons_of_mem _ hu))

/-- First pass of node consistency over fresh domains: it succeeds and
filters every listed variable's domain to the words of its length. -/
lemma ncfold_fresh (cw : Puzzle) (hw : cw.words.Nodup) :
    ∀ (todo : List Slot) (acc : Domains), todo.Nodup →
      (∀ v ∈ todo, acc v = cw.words) →
      ∃ dfin,
        todo.foldlM (fun acc v => do
          let l ← enforceVar (cw.length v) cw.words (acc v)
          pure (updateD acc v l)) acc = .ok dfin ∧
        (∀ v ∈ todo,
          dfin v = cw.words.filter (fun w => w.length == cw.length v)) ∧
        (∀ v, v ∉ todo → dfin v = acc v) := by
  intro todo
  induction todo with
  | nil =>
    intro acc _ _
    exact ⟨acc, rfl, fun v hv => absurd hv (List.not_mem_nil v), fun v _ => rfl⟩
  | cons v rest ih =>
    intro acc hnd hacc
    have hvar : enforceVar (cw.length v) cw.words (acc v) =
        .ok (cw.words.filter (fun w => w.length == cw.length v)) := by
      rw [hacc v (List.mem_cons_self _ _)]
      rw [enforceVar_go (cw.length v) cw.words cw.words hw hw
        (fun w hw2 _ => hw2)]
      congr 1
      apply List.filter_congr
      intro u hu
      by_cases h : u.length = cw.length v <;> simp [h, hu]
    have hstep : (v :: rest).foldlM (fun acc v => do
        let l ← enforceVar (cw.length v) cw.words (acc v)
        pure (updateD acc v l)) acc =
        rest.foldlM (fun acc v => do
          let l ← enforceVar (cw.length v) cw.words (acc v)
          pure (updateD acc v l))
          (updateD acc v (cw.words.filter (fun w => w.length == cw.length v))) := by
      show (do
        let l ← enforceVar (cw.length v) cw.words (acc v)
        pure (updateD acc v l) : Except String Domains) >>= _ = _
      rw [hvar]
      rfl
    have hvrest : v ∉ rest := (List.nodup_cons.mp hnd).1
    obtain ⟨dfin, hfold, hin, hout⟩ := ih
      (updateD acc v (cw.words.filter (fun w => w.length == cw.length v)))
      hnd.of_cons
      (fun u hu => by
        have hne : u ≠ v := fun h => hvrest (h ▸ hu)
        simp only [updateD, if_neg hne]
        exact hacc u (List.mem_cons_of_mem _ hu))
    refine ⟨dfin, hstep.trans hfold, ?_, ?_⟩
    · intro u hu
      rcases List.mem_cons.mp hu with rfl | hu
      · rw [hout u hvrest]
        simp [updateD]
      · exact hin u hu
    · intro u hu
      have hun : u ∉ rest := fun h => hu (List.mem_cons_of_mem _ h)
      have hne : u ≠ v := fun h => hu (h ▸ List.mem_cons_self _ _)
      rw [hout u hun]
      simp [updateD, if_neg hne]

/-- Second pass of node consistency over already-filtered domains: it
raises `KeyError` as soon as some listed variable has a wrong-length word
in the master word list (that word is no longer in the store). -/
lemma ncfold_error (cw : Puzzle) :
    ∀ (todo : List Slot) (acc : Domains),
      (∀ v ∈ todo,
        acc v = cw.words.filter (fun w => w.length == cw.length v)) →
      (∃ v ∈ todo, ∃ w ∈ cw.words, w.length ≠ cw.length v) →
      todo.foldlM (fun acc v => do
        let l ← enforceVar (cw.length v) cw.words (acc v)
        pure (updateD acc v l)) acc = .error "KeyError" := by
  intro todo
  induction todo with
  | nil =>
    intro acc _ hex
    obtain ⟨v, hv, _⟩ := hex
    exact absurd hv (List.not_mem_nil v)
  | cons v rest ih =>
    intro acc hacc hex
    by_cases hv : ∃ w ∈ cw.words, w.length ≠ cw.length v
    · have hvar : enforceVar (cw.length v) cw.words (acc v) = .error "KeyError" := by
        refine enforceVar_error (cw.length v) cw.words (acc v) ?_ hv
        intro w hw hwl hmem
        rw [hacc v (List.mem_cons_self _ _)] at hmem
        have := (List.mem_filter.mp hmem).2
        rw [beq_iff_eq] at this
        exact hwl this
      show (do
        let l ← enforceVar (cw.length v) cw.words (acc v)
        pure (updateD acc v l) : Except String Domains) >>= _ = _
      rw [hvar]
      rfl
    · push_neg at hv
      have hvar : enforceVar (cw.length v) cw.words (acc v) = .ok (acc v) :=
        enforceVar_id (cw.length v) cw.words (acc v) hv
      have hself : updateD acc v (acc v) = acc := by
        funext u
        by_cases h : u = v <;> simp [updateD, h]
      have hstep : (v :: rest).foldlM (fun acc v => do
          let l ← enforceVar (cw.length v) cw.words (acc v)
          pure (updateD acc v l)) acc =
          rest.foldlM (fun acc v => do
            let l ← enforceVar (cw.length v) cw.words (acc v)
            pure (updateD acc v l)) acc := by
        show (do
          let l ← enforceVar (cw.length v) cw.words (acc v)
          pure (updateD acc v l) : Except String Domains) >>= _ = _
        rw [hvar]
        show Except.ok (updateD acc v (acc v)) >>= _ = _
        rw [hself]
        rfl
      rw [hstep]
      refine ih acc (fun u hu => hacc u (List.mem_cons_of_mem _ hu)) ?_
      obtain ⟨u, hu, w, hw, hwl⟩ := hex
      rcases List.mem_cons.mp hu with rfl | hu
      · exact absurd hwl (by simpa using hv w hw)
      · exact ⟨u, hu, w, hw, hwl⟩

/-- Node consistency over domains it can no longer shrink: when every word
has the length of every listed variable, the pass returns the store
unchanged. -/
lemma ncfold_id (cw : Puzzle) :
    ∀ (todo : List Slot) (acc : Domains),
      (∀ v ∈ todo, ∀ w ∈ cw.words, w.length = cw.length v) →
      todo.foldlM (fun acc v => do
        let l ← enforceVar (cw.length v) cw.words (acc v)
        pure (updateD acc v l)) acc = .ok acc := by
  intro todo
  induction todo with
  | nil =>
    intro acc _
    rfl
  | cons v rest ih =>
    intro acc hall
    have hvar : enforceVar (cw.length v) cw.words (acc v) = .ok (acc v) :=
      enforceVar_id (cw.length v) cw.words (acc v)
        (hall v (List.mem_cons_self _ _))
    have hself : updateD acc v (acc v) = acc := by
      funext u
      by_cases h : u = v <;> simp [updateD, h]
    show (do
      let l ← enforceVar (cw.length v) cw.words (acc v)
      pure (updateD acc v l) : Except String Domains) >>= _ = _
    rw [hvar]
    show Except.ok (updateD acc v (acc v)) >>= _ = _
    rw [hself]
    show rest.foldlM _ acc = _
    exact ih acc (fun u hu => hall u (List.mem_cons_of_mem _ hu))

/-- C3 (amended): on fresh domains the first node-consistency pass succeeds
and filters each variable's domain by length; a second pass raises
`KeyError` exactly when some variable has a wrong-length word in the word
list (re-removing an absent element), and only when no word was ever
removed does the second pass return the same domains. -/
theorem node_consistency_second_run (cw : Puzzle) (hw : cw.words.Nodup)
    (hv : cw.vars.Nodup) :
    enforce_node_consistency cw (initDomains cw) = .ok (ncDomains cw) ∧
    ((∃ v ∈ cw.vars, ∃ w ∈ cw.words, w.length ≠ cw.length v) →
      enforce_node_consistency cw (ncDomains cw) = .error "KeyError") ∧
    ((∀ v ∈ cw.vars, ∀ w ∈ cw.words, w.length = cw.length v) →
      enforce_node_consistency cw (ncDomains cw) = .ok (ncDomains cw)) := by
  refine ⟨?_, ?_, ?_⟩
  · obtain ⟨dfin, hfold, hin, hout⟩ :=
      ncfold_fresh cw hw cw.vars (initDomains cw) hv (fun _ _ => rfl)
    have : dfin = ncDomains cw := by
      funext u
      by_cases hu : u ∈ cw.vars
      · rw [hin u hu]
        simp [ncDomains, hu]
      · rw [hout u hu]
        simp [ncDomains, hu, initDomains]
    rw [← this]
    exact hfold
  · intro hex
    exact ncfold_error cw cw.vars (ncDomains cw)
      (fun v hv2 => by simp [ncDomains, hv2]) hex
  · intro hall
    exact ncfold_id cw cw.vars (ncDomains cw) hall

/-- Witness for C3's amended theorem: on the one-slot puzzle with words
{"cat", "tree"}, the second node-consistency pass raises `KeyError`. -/
theorem node_consistency_second_run_witness :
    enforce_node_consistency cwC3 (ncDomains cwC3) = .error "KeyError" :=
  (node_consistency_second_run cwC3 (by decide) (by decide)).2.1
    ⟨0, by decide, treeW, by decide, by decide⟩

/-- `revise` never grows any domain. -/
lemma revise_shrink (cw : Puzzle) (x y : Slot) (d : Domains) :
    ∀ v w, w ∈ (revise cw x y d).2 v → w ∈ d v := by
  intro v w hw
  by_cases hvx : v = x
  · rw [hvx] at hw ⊢
    exact (revise_frame cw x y d).2 w hw
  · rw [(revise_frame cw x y d).1 v hvx] at hw
    exact hw

/-- Every completed `ac3` run only shrinks the store. -/
lemma ac3_shrink (cw : Puzzle) :
    ∀ fuel q d b d', ac3 cw fuel q d = some (b, d') →
      ∀ v w, w ∈ d' v → w ∈ d v := by
  intro fuel
  induction fuel with
  | zero =>
    intro q d b d' h
    cases q with
    | nil =>
      rw [ac3_nil] at h
      have h2 : d = d' := congrArg Prod.snd (Option.some.inj h)
      exact fun v w hw => h2 ▸ hw
    | cons p q' => exact Option.noConfusion h
  | succ n ih =>
    intro q d b d' h
    cases q with
    | nil =>
      rw [ac3_nil] at h
      have h2 : d = d' := congrArg Prod.snd (Option.some.inj h)
      exact fun v w hw => h2 ▸ hw
    | cons p q' =>
      obtain ⟨x, y⟩ := p
      rcases hb : (revise cw x y d).1 with _ | _
      · rw [ac3_skip_step cw n x y q' d hb] at h
        exact ih q' d b d' h
      · have hrev : revise cw x y d = (true, (revise cw x y d).2) := by
          rw [← hb]
        by_cases hemp : (revise cw x y d).2 x = []
        · rw [ac3_fail_step cw n x y q' d _ hrev hemp] at h
          have h2 : (revise cw x y d).2 = d' :=
            congrArg Prod.snd (Option.some.inj h)
          exact fun v w hw => revise_shrink cw x y d v w (h2 ▸ hw)
        · rw [ac3_requeue_step cw n x y q' d _ hrev hemp] at h
          exact fun v w hw =>
            revise_shrink cw x y d v w (ih _ _ b d' h v w hw)

/-- Neither phase of the search ever restores or grows a domain: every
completed call returns a store whose domains are contained in the input
domains. -/
lemma backtrack_tryValues_shrink (cw : Puzzle) :
    ∀ fuel,
      (∀ a d r d', backtrack cw fuel a d = some (r, d') →
        ∀ v w, w ∈ d' v → w ∈ d v) ∧
      (∀ var vals a d r d', tryValues cw fuel var vals a d = some (r, d') →
        ∀ v w, w ∈ d' v → w ∈ d v) := by
  intro fuel
  induction fuel with
  | zero =>
    constructor
    · intro a d r d' h
      exact Option.noConfusion h
    · intro var vals a d r d' h
      cases vals with
      | nil =>
        have h2 : d = d' := congrArg Prod.snd (Option.some.inj h)
        exact fun v w hw => h2 ▸ hw
      | cons v rest => exact Option.noConfusion h
  | succ n ih =>
    constructor
    · intro a d r d' h
      rw [backtrack] at h
      by_cases hcomp : assignment_complete cw a = true
      · rw [if_pos hcomp] at h
        have h2 : d = d' := congrArg Prod.snd (Option.some.inj h)
        exact fun v w hw => h2 ▸ hw
      · rw [if_neg hcomp] at h
        rcases hsel : select_unassigned_variable cw d a with _ | u
        · rw [hsel] at h
          have h2 : d = d' := congrArg Prod.snd (Option.some.inj h)
          exact fun v w hw => h2 ▸ hw
        · rw [hsel] at h
          exact ih.2 u _ a d r d' h
    · intro var vals a d r d' h
      cases vals with
      | nil =>
        have h2 : d = d' := congrArg Prod.snd (Option.some.inj h)
        exact fun v w hw => h2 ▸ hw
      | cons v rest =>
        rw [tryValues] at h
        by_cases hcons : consistent cw (insertA a var v) = true
        · rw [if_pos hcons] at h
          rcases hac : ac3 cw (n + 1)
              ((neighbors cw var).map (fun m => (var, m))) d with _ | ⟨inf, d2⟩
          · rw [hac] at h
            exact Option.noConfusion h
          · rw [hac] at h
            dsimp only at h
            have hshr2 := ac3_shrink cw (n + 1) _ d inf d2 hac
            cases inf with
            | true =>
              rw [if_pos rfl] at h
              exact fun v2 w hw =>
                hshr2 v2 w (ih.1 (insertA a var v) d2 r d' h v2 w hw)
            | false =>
              rw [if_neg (by decide)] at h
              exact fun v2 w hw =>
                hshr2 v2 w (ih.2 var rest a d2 r d' h v2 w hw)
        · rw [if_neg hcons] at h
          exact ih.2 var rest a d r d' h

/-- C2 (amended): `backtrack` never restores the domain store.  What holds
instead of exact restoration is monotone shrinkage: every completed
`backtrack` call — in particular every call that returns failure — leaves
each slot's domain a subset of what it was before the call, and the
counterexample `backtrack_no_restore` shows the inclusion can be strict. -/
theorem backtrack_only_shrinks (cw : Puzzle) (fuel : Nat) (a : Assignment)
    (d : Domains) (r : Option Assignment) (d' : Domains)
    (h : backtrack cw fuel a d = some (r, d')) :
    ∀ v w, w ∈ d' v → w ∈ d v :=
  (backtrack_tryValues_shrink cw fuel).1 a d r d' h

/-- Witness for C2's amended theorem: on the failing `cwEx1` run, the word
"dog" still present in slot 1's final domain was present initially. -/
theorem backtrack_only_shrinks_witness : dogW ∈ dC2 1 :=
  backtrack_only_shrinks cwEx1 5 [] dC2 none (updateD dC2 0 []) rfl 1 dogW
    (by decide)

/-- A successful association-list lookup exhibits a member entry. -/
lemma lookup_mem {a : Assignment} {k : Slot} {w : Word}
    (h : a.lookup k = some w) : (k, w) ∈ a := by
  induction a with
  | nil => exact Option.noConfusion h
  | cons p rest ih =>
    rw [List.lookup] at h
    rcases hk : (k == p.1) with _ | _
    · rw [hk] at h
      dsimp only at h
      exact List.mem_cons_of_mem _ (ih h)
    · rw [hk] at h
      dsimp only at h
      have hw : p.2 = w := Option.some.inj h
      have hk2 : k = p.1 := beq_iff_eq.mp hk
      rw [List.mem_cons]
      left
      rw [hk2, ← hw]

/-- Both phases of the search only return assignments that are complete and
consistent, provided the input assignment is consistent (the search only
ever extends consistently). -/
lemma backtrack_tryValues_sound (cw : Puzzle) :
    ∀ fuel,
      (∀ a d r d', consistent cw a = true →
        backtrack cw fuel a d = some (some r, d') →
        assignment_complete cw r = true ∧ consistent cw r = true) ∧
      (∀ var vals a d r d', consistent cw a = true →
        tryValues cw fuel var vals a d = some (some r, d') →
        assignment_complete cw r = true ∧ consistent cw r = true) := by
  intro fuel
  induction fuel with
  | zero =>
    constructor
    · intro a d r d' _ h
      exact Option.noConfusion h
    · intro var vals a d r d' _ h
      cases vals with
      | nil => exact Option.noConfusion (congrArg Prod.fst (Option.some.inj h))
      | cons v rest => exact Option.noConfusion h
  | succ n ih =>
    constructor
    · intro a d r d' hca h
      rw [backtrack] at h
      by_cases hcomp : assignment_complete cw a = true
      · rw [if_pos hcomp] at h
        have h1 : some a = some r := congrArg Prod.fst (Option.some.inj h)
        have h2 : a = r := Option.some.inj h1
        exact ⟨h2 ▸ hcomp, h2 ▸ hca⟩
      · rw [if_neg hcomp] at h
        rcases hsel : select_unassigned_variable cw d a with _ | u
        · rw [hsel] at h
          exact Option.noConfusion (congrArg Prod.fst (Option.some.inj h))
        · rw [hsel] at h
          exact ih.2 u _ a d r d' hca h
    · intro var vals a d r d' hca h
      cases vals with
      | nil => exact Option.noConfusion (congrArg Prod.fst (Option.some.inj h))
      | cons v rest =>
        rw [tryValues] at h
        by_cases hcons : consistent cw (insertA a var v) = true
        · rw [if_pos hcons] at h
          rcases hac : ac3 cw (n + 1)
              ((neighbors cw var).map (fun m => (var, m))) d with _ | ⟨inf, d2⟩
          · rw [hac] at h
            exact Option.noConfusion h
          · rw [hac] at h
            dsimp only at h
            cases inf with
            | true =>
              rw [if_pos rfl] at h
              exact ih.1 (insertA a var v) d2 r d' hcons h
            | false =>
              rw [if_neg (by decide)] at h
              exact ih.2 var rest a d2 r d' hca h
        · rw [if_neg hcons] at h
          exact ih.2 var rest a d r d' hca h

/-- C5: every non-`None` value returned by `solve` is a complete and
consistent assignment: each slot carries a word, each assigned word has the
slot's length, and every overlapping pair of slots agrees at the overlap
positions. -/
theorem solve_returns_complete_consistent (cw : Puzzle) (fuel : Nat)
    (r : Assignment) (h : solve cw fuel = .ok (some r)) :
    assignment_complete cw r = true ∧ consistent cw r = true ∧
    (∀ v ∈ cw.vars, ∃ w, r.lookup v = some w ∧ w.length = cw.length v) ∧
    (∀ x y i j wx wy, x ∈ cw.vars → y ∈ cw.vars → x ≠ y →
      cw.overlaps x y = some (i, j) → r.lookup x = some wx →
      r.lookup y = some wy → charAt wx i = charAt wy j) := by
  unfold solve at h
  rcases hnc : enforce_node_consistency cw (initDomains cw) with e | d0
  · rw [hnc] at h
    exact Except.noConfusion h
  · rw [hnc] at h
    dsimp only at h
    rcases hac : ac3 cw fuel (allArcs cw) d0 with _ | ⟨b, d1⟩
    · rw [hac] at h
      exact Except.noConfusion h
    · rw [hac] at h
      dsimp only at h
      rcases hbt : backtrack cw fuel [] d1 with _ | ⟨rr, dd⟩
      · rw [hbt] at h
        exact Except.noConfusion h
      · rw [hbt] at h
        dsimp only at h
        have hrr : rr = some r := Except.ok.inj h
        subst hrr
        obtain ⟨hcomp, hcons⟩ :=
          (backtrack_tryValues_sound cw fuel).1 [] d1 r dd rfl hbt
        have hall : ∀ p ∈ r, ((cw.length p.1 == p.2.length) &&
            (neighbors cw p.1).all (fun y =>
              match r.lookup y with
              | none => true
              | some wy =>
                match cw.overlaps p.1 y with
                | none => true
                | some (i, j) => charAt p.2 i == charAt wy j)) = true := by
          rw [consistent] at hcons
          exact List.all_eq_true.mp hcons
        refine ⟨hcomp, hcons, ?_, ?_⟩
        · intro v hv
          have hcv := List.all_eq_true.mp hcomp v hv
          rcases hlv : r.lookup v with _ | w
          · rw [hlv] at hcv
            exact Bool.noConfusion hcv
          · have hmem := lookup_mem hlv
            have hp := hall (v, w) hmem
            rw [Bool.and_eq_true] at hp
            exact ⟨w, rfl, (beq_iff_eq.mp hp.1).symm⟩
        · intro x y i j wx wy hx hy hxy hov hlx hly
          have hmem := lookup_mem hlx
          have hp := hall (x, wx) hmem
          rw [Bool.and_eq_true] at hp
          have hnb := hp.2
          have hymem : y ∈ neighbors cw x := by
            rw [neighbors, List.mem_filter]
            refine ⟨hy, ?_⟩
            simp [Ne.symm hxy, hov]
          have hyy := List.all_eq_true.mp hnb y hymem
          rw [hly] at hyy
          dsimp only at hyy
          rw [hov] at hyy
          exact beq_iff_eq.mp hyy

/-- Witness for C5: on Example 2, the assignment returned by `solve` is
complete. -/
theorem solve_returns_complete_consistent_witness :
    assignment_complete cwEx2 [(0, catW), (1, topW)] = true :=
  (solve_returns_complete_consistent cwEx2 50 [(0, catW), (1, topW)] rfl).1

/-- Every arc of the initial worklist starts at a puzzle variable. -/
lemma allArcs_fst_mem (cw : Puzzle) : ∀ p ∈ allArcs cw, p.1 ∈ cw.vars := by
  intro p hp
  rw [allArcs, List.mem_flatMap] at hp
  obtain ⟨x, hx, hp2⟩ := hp
  obtain ⟨y, hy, rfl⟩ := List.mem_map.mp hp2
  exact hx

/-- C9: `solve` ignores the boolean result of its global `ac3` pass; when
that pass reports failure, some slot's domain is empty, the
minimum-remaining-values selection picks a slot with an empty domain, its
candidate list is empty, and `backtrack` returns `None` immediately, so
`solve` terminates normally with `None` rather than raising. -/
theorem solve_ignores_failed_ac3 (cw : Puzzle) (fuel : Nat) (d0 d1 : Domains)
    (h0 : enforce_node_consistency cw (initDomains cw) = .ok d0)
    (h1 : ac3 cw fuel (allArcs cw) d0 = some (false, d1)) :
    backtrack cw fuel [] d1 = some (none, d1) ∧ solve cw fuel = .ok none := by
  obtain ⟨v, hvmem, hvemp⟩ :=
    ac3_false_empty cw fuel (allArcs cw) d0 d1 (allArcs_fst_mem cw) h1
  cases fuel with
  | zero =>
    exfalso
    rcases harcs : allArcs cw with _ | ⟨p, q⟩
    · rw [harcs, ac3_nil] at h1
      exact Bool.noConfusion (congrArg Prod.fst (Option.some.inj h1))
    · rw [harcs] at h1
      exact Option.noConfusion h1
  | succ n =>
    have hbc : ¬ assignment_complete cw [] = true := by
      intro hbc2
      have := List.all_eq_true.mp hbc2 v hvmem
      simp [List.lookup] at this
    have hfilter : cw.vars.filter
        (fun u => (List.lookup u ([] : Assignment)).isNone) = cw.vars :=
      List.filter_eq_self.mpr (fun u _ => rfl)
    have hne : cw.vars.filter
        (fun u => (List.lookup u ([] : Assignment)).isNone) ≠ [] := by
      rw [hfilter]
      intro hemp
      rw [hemp] at hvmem
      exact List.not_mem_nil v hvmem
    obtain ⟨u, hsel, humem, hun, hall⟩ := select_unassigned_spec cw d1 [] hne
    have hu0 : d1 u = [] := by
      have hlen := (hall v hvmem rfl).1
      rw [hvemp] at hlen
      exact List.length_eq_zero.mp (Nat.le_zero.mp hlen)
    have hbt : backtrack cw (n + 1) [] d1 = some (none, d1) := by
      rw [backtrack, if_neg hbc, hsel]
      dsimp only
      have hord : order_domain_values cw d1 u [] = [] := by
        rw [order_domain_values, hu0]
        rfl
      rw [hord, tryValues]
    refine ⟨hbt, ?_⟩
    unfold solve
    rw [h0]
    dsimp only
    rw [h1]
    dsimp only
    rw [hbt]

/-- Witness for C9: on Example 1 (word list {"cat", "dog"}), node
consistency removes nothing, the global `ac3` pass fails after emptying
slot 0's domain, and `solve` still returns `None` normally. -/
theorem solve_ignores_failed_ac3_witness : solve cwEx1 50 = .ok none :=
  (solve_ignores_failed_ac3 cwEx1 50
    (updateD (updateD (initDomains cwEx1) 0 [catW, dogW]) 1 [catW, dogW])
    (updateD (updateD (updateD (initDomains cwEx1) 0 [catW, dogW]) 1
      [catW, dogW]) 0 [])
    rfl rfl).2

end CrosswordCSP
